import Mathlib

/-!
Verification of the `usefulrisk/timeseries` Go library against its
natural-language specification.

Shallow embedding conventions, shared by every definition below:

* `float64` values are modelled as `FloatVal := Option ℚ`: `some q` is the
  exact rational carried by a finite float, and `none` models IEEE NaN
  (the library uses NaN purely as a "missing / sentinel" marker).
  Arithmetic propagates `none` exactly as float arithmetic propagates NaN,
  and every ordered comparison involving `none` is false, as in IEEE 754.
* `time.Time` is modelled as `ℤ`, a count of nanoseconds since Go's zero
  time, which is how Go itself compares and truncates instants.
* Go's unstable `sort.Slice` / `sort.Float64s` is modelled by
  `List.insertionSort`, a deterministic refinement of the unspecified
  permutation the Go runtime picks (all properties proved below are
  insensitive to which permutation an unstable sort returns).
* A Go function that can panic (out-of-range slice or array index) or
  abort (`log.Fatal`) is embedded with an `Option` result, `none` marking
  the panic/abort; a function returning `(float64, error)` is embedded
  with `Except`.
-/

namespace TimeseriesModel

/-- A float64 value: `some q` is a finite float, `none` is IEEE NaN. -/
abbrev FloatVal := Option ℚ

/-- Float addition: NaN propagates. -/
def fadd : FloatVal → FloatVal → FloatVal
  | some a, some b => some (a + b)
  | _, _ => none

/-- Float subtraction: NaN propagates. -/
def fsub : FloatVal → FloatVal → FloatVal
  | some a, some b => some (a - b)
  | _, _ => none

/-- Float absolute value (`math.Abs`): NaN propagates. -/
def fabs : FloatVal → FloatVal
  | some a => some |a|
  | none => none

/-- Division of a float by a (positive) slice length, as in `sum / float64(len)`.
Only reached with a positive divisor in the embedded code paths. -/
def fdivNat : FloatVal → ℕ → FloatVal
  | some a, n => some (a / n)
  | none, _ => none

/-- Strict `<` on floats: any comparison against NaN is false (IEEE 754). -/
def fltB : FloatVal → FloatVal → Bool
  | some a, some b => decide (a < b)
  | _, _ => false

/-- Strict `>` on floats: any comparison against NaN is false (IEEE 754). -/
def fgtB (a b : FloatVal) : Bool := fltB b a

/-- Sum of a float slice accumulated left to right from `0.0`,
as the `for … { sum += n }` loops do. -/
def fsum (l : List FloatVal) : FloatVal := l.foldl fadd (some 0)

/-- Error values surfaced by the statistics primitives. The Go code uses
distinguishable `error` values; identity matters to callers, so each
distinct error value is a distinct constructor. -/
inductive StatErr where
  /-- The shared `ErrEmptyInput` sentinel error. -/
  | emptyInput
  /-- The shared `ErrBounds` sentinel error. -/
  | bounds
  /-- The ad-hoc `errors.New "empty slice"` value created inside `StdDev`;
  a fresh error, distinct from `ErrEmptyInput`. -/
  | goEmptySlice
  deriving DecidableEq, Repr

instance {ε α : Type} [DecidableEq ε] [DecidableEq α] : DecidableEq (Except ε α) := fun
  | .ok a, .ok b =>
      if h : a = b then .isTrue (by rw [h]) else .isFalse (by simp [h])
  | .ok _, .error _ => .isFalse (by simp)
  | .error _, .ok _ => .isFalse (by simp)
  | .error e, .error f =>
      if h : e = f then .isTrue (by rw [h]) else .isFalse (by simp [h])

/-- `Sum` from `src/stats.go`: total of the slice, `ErrEmptyInput` on empty
input (the Go function also returns NaN then; the error is the payload). -/
def Sum (input : List FloatVal) : Except StatErr FloatVal :=
  if input.length = 0 then .error .emptyInput
  else .ok (fsum input)

/-- `Mean` from `src/stats.go`: `Sum input / len input`, `ErrEmptyInput` on
empty input. -/
def Mean (input : List FloatVal) : Except StatErr FloatVal :=
  if input.length = 0 then .error .emptyInput
  else .ok (fdivNat (fsum input) input.length)

/-- Ascending sort of a float slice, modelling `sort.Float64s`. -/
def sortFloatAsc (l : List FloatVal) : List FloatVal :=
  l.insertionSort (fun a b => fltB a b)

/-- `Median` from `src/stats.go`. The Go function sorts the caller's slice
**in place** (`sort.Float64s(input)`); the first component of the result is
the caller-visible contents of the slice after the call, the second the
returned value. Even length: mean of the two central elements (via `Mean`
on the two-element sub-slice); odd length: middle element. -/
def Median (input : List FloatVal) : List FloatVal × Except StatErr FloatVal :=
  let sorted := sortFloatAsc input
  let l := sorted.length
  if l = 0 then (sorted, .error .emptyInput)
  else if l % 2 = 0 then
    (sorted, .ok (fdivNat (fadd (sorted.getD (l / 2 - 1) none) (sorted.getD (l / 2) none)) 2))
  else (sorted, .ok (sorted.getD (l / 2) none))

/-- `Min` from `src/stats.go`: first element, then replace on strictly
smaller; `ErrEmptyInput` on empty input. -/
def Min (input : List FloatVal) : Except StatErr FloatVal :=
  match input with
  | [] => .error .emptyInput
  | x :: xs => .ok (xs.foldl (fun m v => if fltB v m then v else m) x)

/-- `Max` from `src/stats.go`: first element, then replace on strictly
larger; `ErrEmptyInput` on empty input. -/
def Max (input : List FloatVal) : Except StatErr FloatVal :=
  match input with
  | [] => .error .emptyInput
  | x :: xs => .ok (xs.foldl (fun m v => if fgtB v m then v else m) x)

/-- Float multiplication: NaN propagates. -/
def fmul : FloatVal → FloatVal → FloatVal
  | some a, some b => some (a * b)
  | _, _ => none

/-- `StdDev` from `src/stats.go`, embedded up to the final `math.Sqrt`:
the `.ok` payload is the radicand `sqDiffSum / n` (the population
variance). The square root is irrational-valued, so comparison sites below
(`Peirce`) compare squares instead, which is order-equivalent for the
non-negative quantities involved. The control flow — and in particular the
error behaviour — is exactly that of the source: an empty slice yields the
ad-hoc `errors.New "empty slice"` value, not the `ErrEmptyInput` sentinel
the function's own doc comment promises. -/
def StdDevSq (data : List FloatVal) : Except StatErr FloatVal :=
  let n := data.length
  if n = 0 then .error .goEmptySlice
  else
    let mean := fdivNat (fsum data) n
    let sqDiffSum := fsum (data.map (fun v => fmul (fsub v mean) (fsub v mean)))
    .ok (fdivNat sqDiffSum n)

/-- `Percentile` from `src/stats.go`. The Go function copies the slice
(`cp := append(nil, x...)`) and sorts the copy, so the caller's slice is
returned unchanged as the first component (the caller-visible state after
the call); the second component is the returned value. `k` is
`int(math.Floor(p/100 * float64(n)))`, and the three branches return
`cp[0]`, `cp[n-1]` and `cp[k-1]`. -/
def Percentile (x : List FloatVal) (p : ℚ) : List FloatVal × Except StatErr FloatVal :=
  let n := x.length
  if n = 0 then (x, .error .emptyInput)
  else if p ≤ 0 ∨ 100 < p then (x, .error .bounds)
  else
    let cp := sortFloatAsc x
    let k : ℤ := (p / 100 * (n : ℚ)).floor
    if k < 1 then (x, .ok (cp.getD 0 none))
    else if n ≤ k then (x, .ok (cp.getD (n - 1) none))
    else (x, .ok (cp.getD (k - 1).toNat none))

/-- The five-point slice used by the spec's percentile examples. -/
def pctExample : List FloatVal := [some 10, some 20, some 30, some 40, some 50]

/-- C3: for every non-empty slice `x` and `p` in `(0, 100]`, `Percentile`
returns the element of the ascending-sorted copy at 1-based rank
`k = ⌊p/100 · n⌋` clamped into `[1, n]`; for `p` outside `(0, 100]` it
fails with the out-of-range error; on `[10,20,30,40,50]` it returns `20`
for `p = 50` and `40` for `p = 99`. -/
theorem percentile_rank_clamped (x : List FloatVal) (p : ℚ) (hx : x ≠ []) :
    (0 < p → p ≤ 100 →
      (Percentile x p).2 =
        .ok ((sortFloatAsc x).getD
          ((max 1 (min (p / 100 * (x.length : ℚ)).floor (x.length : ℤ)) - 1).toNat) none))
    ∧ ((p ≤ 0 ∨ 100 < p) → (Percentile x p).2 = .error .bounds)
    ∧ (Percentile pctExample 50).2 = .ok (some 20)
    ∧ (Percentile pctExample 99).2 = .ok (some 40) := by
  have hn : x.length ≠ 0 := by simpa using hx
  refine ⟨?_, ?_, by with_unfolding_all decide, by with_unfolding_all decide⟩
  · intro hp0 hp100
    have hrange : ¬(p ≤ 0 ∨ 100 < p) := by push_neg; exact ⟨hp0, hp100⟩
    simp only [Percentile, if_neg hn, if_neg hrange]
    set k : ℤ := (p / 100 * (x.length : ℚ)).floor with hk
    by_cases h1 : k < 1
    · have hmax : max 1 (min k (x.length : ℤ)) = 1 :=
        max_eq_left (le_trans (min_le_left _ _) (by omega))
      simp [h1, hmax]
    · by_cases h2 : (x.length : ℤ) ≤ k
      · have hidx : (max 1 (min k (x.length : ℤ)) - 1).toNat = x.length - 1 := by
          rw [min_eq_right h2, max_eq_right (by omega : (1 : ℤ) ≤ (x.length : ℤ))]
          omega
        have hcond : x.length ≤ k := by omega
        simp only [if_neg h1, if_pos hcond, hidx]
      · have hidx : (max 1 (min k (x.length : ℤ)) - 1).toNat = (k - 1).toNat := by
          rw [min_eq_left (by omega), max_eq_right (by omega : (1 : ℤ) ≤ k)]
        have hcond : ¬ x.length ≤ k := by omega
        simp only [if_neg h1, if_neg hcond, hidx]
  · intro hrange
    simp only [Percentile, if_neg hn, if_pos hrange]

/-- Witness for C3 at `x = [10,20,30,40,50]`, `p = 50`. -/
theorem percentile_rank_clamped_witness :
    (pctExample ≠ [] ∧ (0 : ℚ) < 50 ∧ (50 : ℚ) ≤ 100)
    ∧ (Percentile pctExample 50).2 =
        .ok ((sortFloatAsc pctExample).getD
          ((max 1 (min ((50 : ℚ) / 100 * (pctExample.length : ℚ)).floor
            (pctExample.length : ℤ)) - 1).toNat) none) :=
  ⟨⟨by decide, by norm_num, by norm_num⟩,
    (percentile_rank_clamped pctExample 50 (by decide)).1 (by norm_num) (by norm_num)⟩

/-- C6 counterexample: `Median` does mutate the caller's slice. Called on
`[3, 1, 2]`, the caller-visible slice afterwards is the sorted `[1, 2, 3]`,
not the original `[3, 1, 2]` — the claim that contents and order are
preserved is false. -/
theorem median_mutates_counterexample :
    (Median [some 3, some 1, some 2]).1 = [some 1, some 2, some 3]
    ∧ (Median [some 3, some 1, some 2]).1 ≠ [some 3, some 1, some 2] := by
  constructor <;> with_unfolding_all decide

/-- C6 amended: `Median` sorts the caller's slice in place — after the call
the caller's sequence is the ascending sort of its previous contents (hence
a permutation of them, with order generally changed), exactly as the
function's own doc comment warns. -/
theorem median_sorts_in_place (x : List FloatVal) :
    (Median x).1 = sortFloatAsc x ∧ (Median x).1.Perm x := by
  have h1 : (Median x).1 = sortFloatAsc x := by
    simp only [Median]
    split_ifs <;> rfl
  exact ⟨h1, h1 ▸ List.perm_insertionSort _ x⟩

/-- C9: on a zero-length sequence the primitives `Sum`, `Mean`, `Median`,
`Min`, `Max` and `Percentile` fail with the `ErrEmptyInput` sentinel, but
`StdDev` fails with a freshly created "empty slice" error that is *not*
the `ErrEmptyInput` value its own documentation promises — the uniform
"every primitive fails with EmptyInput" property is broken by `StdDev`. -/
theorem empty_input_errors :
    Sum [] = .error .emptyInput
    ∧ Mean [] = .error .emptyInput
    ∧ (Median []).2 = .error .emptyInput
    ∧ Min [] = .error .emptyInput
    ∧ Max [] = .error .emptyInput
    ∧ (∀ p : ℚ, (Percentile [] p).2 = .error .emptyInput)
    ∧ StdDevSq [] = .error .goEmptySlice
    ∧ StatErr.goEmptySlice ≠ StatErr.emptyInput :=
  ⟨rfl, rfl, rfl, rfl, rfl, fun _ => rfl, rfl, by decide⟩

/-- C10: `Percentile` sorts an internal copy and leaves the caller's slice
unchanged — in contrast to `Median`, which sorts the very slice it is
given (shown here on `[3, 1, 2]`). -/
theorem percentile_does_not_mutate (x : List FloatVal) (p : ℚ) :
    (Percentile x p).1 = x
    ∧ (Median [some 3, some 1, some 2]).1 ≠ [some 3, some 1, some 2] := by
  refine ⟨?_, by with_unfolding_all decide⟩
  simp only [Percentile]
  split_ifs <;> rfl

/-- `StatusCode` from the data-model file: validity tag of one observation. -/
inductive StatusCode where
  | StOK
  | StMissing
  | StOutlier
  | StInvalid
  deriving DecidableEq, Repr

/-- `DataUnit`: one timestamped measurement. `Chron` is the instant in
nanoseconds since Go's zero time; `Meas` is the measured float; `Dchron`
and `Dmeas` are the derived deltas (zero-valued in freshly constructed
units, Go's zero values); `Status` defaults to `StOK` (`iota` zero). A Go
`TimeSeries` is modelled by its `DataSeries` slice, a `List DataUnit`
(its `Name`/`Comment` metadata play no part in any claim). -/
structure DataUnit where
  Chron : ℤ
  Meas : FloatVal
  Dchron : ℤ := 0
  Dmeas : FloatVal := some 0
  Status : StatusCode := .StOK
  deriving DecidableEq, Repr

instance : Inhabited DataUnit := ⟨{ Chron := 0, Meas := none }⟩

/-- `a` is strictly earlier than `b` (`Chron.Before`). -/
def chronLt (a b : DataUnit) : Prop := a.Chron < b.Chron

/-- `a` is no later than `b`. -/
def chronLe (a b : DataUnit) : Prop := a.Chron ≤ b.Chron

instance : DecidableRel chronLt :=
  fun a b => inferInstanceAs (Decidable (a.Chron < b.Chron))

instance : DecidableRel chronLe :=
  fun a b => inferInstanceAs (Decidable (a.Chron ≤ b.Chron))

instance : IsTrans DataUnit chronLt := ⟨fun _ _ _ => lt_trans⟩

instance : IsTrans DataUnit chronLe := ⟨fun _ _ _ => le_trans⟩

instance : IsTotal DataUnit chronLe := ⟨fun a b => le_total a.Chron b.Chron⟩

theorem chronLt_le {a b : DataUnit} (h : chronLt a b) : chronLe a b := le_of_lt h

/-- `SortMeasAsc`, modelling `sort.Slice` with `Meas i < Meas j`. -/
def sortMeasAsc (l : List DataUnit) : List DataUnit :=
  l.insertionSort (fun a b => fltB a.Meas b.Meas = true)

/-- `SortChronAsc`, modelling `sort.Slice` with `Chron i` before `Chron j`. -/
def sortChronAsc (l : List DataUnit) : List DataUnit :=
  l.insertionSort chronLe

/-- The rejection test of `RemoveOutbounds`:
`dataunit.Meas > max || dataunit.Meas < min` with IEEE comparisons, so a
NaN measurement fails both comparisons and is *not* rejected. -/
def outOfBounds (lo hi : ℚ) (du : DataUnit) : Bool :=
  fgtB du.Meas (some hi) || fltB du.Meas (some lo)

/-- `RemoveOutbounds` from `src/outliers.go`: sort the series by
measurement, walk it appending each unit (with its status rewritten) to
the rejected or kept output, then sort both outputs chronologically. The
walk in sorted order appending to two outputs is exactly a filter over the
measurement-sorted list followed by the status rewrite. The receiver is
also restored to chronological order in place, which does not affect the
returned pair. The `min`/`max` float bounds are modelled as rationals
`lo`/`hi` (finite floats). -/
def RemoveOutbounds (tsin : List DataUnit) (lo hi : ℚ) :
    List DataUnit × List DataUnit :=
  let sorted := sortMeasAsc tsin
  let tsrej := (sorted.filter (fun du => outOfBounds lo hi du)).map
      (fun du => { du with Status := .StOutlier })
  let tsout := (sorted.filter (fun du => !outOfBounds lo hi du)).map
      (fun du => { du with Status := .StOK })
  (sortChronAsc tsout, sortChronAsc tsrej)

/-- C8 counterexample: a record whose measurement is NaN — a value in no
closed interval `[low, high]` — is *kept* with status OK rather than
rejected, because both IEEE comparisons against the bounds are false.
Here `S = [⟨Chron 0, Meas NaN⟩]`, `low = 0 ≤ high = 1`: the claim demands
this record land in `rejected` with status Outlier, but the code returns
it in `kept` with status OK and an empty `rejected`. -/
theorem remove_outbounds_nan_counterexample :
    RemoveOutbounds [{ Chron := 0, Meas := none }] 0 1 =
      ([{ Chron := 0, Meas := none, Status := .StOK }], [])
    ∧ (({ Chron := 0, Meas := none } : DataUnit)).Meas = none
    ∧ (0 : ℚ) ≤ 1 := by
  refine ⟨by with_unfolding_all decide, rfl, by norm_num⟩

/-- C8 amended: `RemoveOutbounds` places every record of `S` in exactly one
of the two outputs (`len kept + len rejected = len S`); a record whose
measurement is a real number in `[lo, hi]` is kept with status OK, one
whose measurement is a real number outside `[lo, hi]` is rejected with
status Outlier, and a record whose measurement is NaN is kept with status
OK. Each output is a permutation of the corresponding filter of `S` with
statuses rewritten. -/
theorem remove_outbounds_partition (S : List DataUnit) (lo hi : ℚ) :
    ((RemoveOutbounds S lo hi).1.length + (RemoveOutbounds S lo hi).2.length = S.length)
    ∧ (RemoveOutbounds S lo hi).1.Perm
        ((S.filter (fun du => !outOfBounds lo hi du)).map
          (fun du => { du with Status := .StOK }))
    ∧ (RemoveOutbounds S lo hi).2.Perm
        ((S.filter (fun du => outOfBounds lo hi du)).map
          (fun du => { du with Status := .StOutlier }))
    ∧ (∀ du ∈ (RemoveOutbounds S lo hi).1, du.Status = .StOK)
    ∧ (∀ du ∈ (RemoveOutbounds S lo hi).2, du.Status = .StOutlier)
    ∧ (∀ du ∈ S, ∀ q : ℚ, du.Meas = some q → lo ≤ q → q ≤ hi →
        { du with Status := .StOK } ∈ (RemoveOutbounds S lo hi).1)
    ∧ (∀ du ∈ S, ∀ q : ℚ, du.Meas = some q → (q < lo ∨ hi < q) →
        { du with Status := .StOutlier } ∈ (RemoveOutbounds S lo hi).2)
    ∧ (∀ du ∈ S, du.Meas = none →
        { du with Status := .StOK } ∈ (RemoveOutbounds S lo hi).1) := by
  have hms : (sortMeasAsc S).Perm S := List.perm_insertionSort _ S
  have hkeep : (RemoveOutbounds S lo hi).1.Perm
      ((S.filter (fun du => !outOfBounds lo hi du)).map
        (fun du => { du with Status := .StOK })) := by
    refine (List.perm_insertionSort _ _).trans ?_
    exact (hms.filter _).map _
  have hrej : (RemoveOutbounds S lo hi).2.Perm
      ((S.filter (fun du => outOfBounds lo hi du)).map
        (fun du => { du with Status := .StOutlier })) := by
    refine (List.perm_insertionSort _ _).trans ?_
    exact (hms.filter _).map _
  have hlen : (RemoveOutbounds S lo hi).1.length + (RemoveOutbounds S lo hi).2.length
      = S.length := by
    rw [hkeep.length_eq, hrej.length_eq, List.length_map, List.length_map]
    have := (List.filter_append_perm (fun du => outOfBounds lo hi du) S).length_eq
    rw [List.length_append] at this
    omega
  refine ⟨hlen, hkeep, hrej, ?_, ?_, ?_, ?_, ?_⟩
  · intro du hdu
    rcases List.mem_map.1 (hkeep.mem_iff.1 hdu) with ⟨o, _, rfl⟩
    rfl
  · intro du hdu
    rcases List.mem_map.1 (hrej.mem_iff.1 hdu) with ⟨o, _, rfl⟩
    rfl
  · intro du hdu q hq hlo hhi
    refine hkeep.mem_iff.2 (List.mem_map.2 ⟨du, List.mem_filter.2 ⟨hdu, ?_⟩, rfl⟩)
    simp only [outOfBounds, hq, fgtB, fltB, Bool.not_eq_true']
    simp only [Bool.or_eq_false_iff, decide_eq_false_iff_not, not_lt]
    exact ⟨hhi, hlo⟩
  · intro du hdu q hq hout
    refine hrej.mem_iff.2 (List.mem_map.2 ⟨du, List.mem_filter.2 ⟨hdu, ?_⟩, rfl⟩)
    simp only [outOfBounds, hq, fgtB, fltB]
    rcases hout with h | h
    · simp [h]
    · simp [h]
  · intro du hdu hq
    refine hkeep.mem_iff.2 (List.mem_map.2 ⟨du, List.mem_filter.2 ⟨hdu, ?_⟩, rfl⟩)
    simp [outOfBounds, hq, fgtB, fltB]

/-- The 58 × 9 critical-ratio table literal built inside `Rtable` in
`src/outliers.go`, row by row (the float literals are exact decimals;
note the source's row 57 third entry really is `.223`, i.e. `0.223`). -/
def rtableRows : List (List ℚ) :=
  [[1.196, 0, 0, 0, 0, 0, 0, 0, 0],
   [1.383, 1.078, 0, 0, 0, 0, 0, 0, 0],
   [1.509, 1.2, 0, 0, 0, 0, 0, 0, 0],
   [1.61, 1.299, 1.099, 0, 0, 0, 0, 0, 0],
   [1.693, 1.382, 1.187, 1.022, 0, 0, 0, 0, 0],
   [1.763, 1.453, 1.261, 1.109, 0, 0, 0, 0, 0],
   [1.824, 1.515, 1.324, 1.178, 1.045, 0, 0, 0, 0],
   [1.878, 1.57, 1.38, 1.237, 1.114, 0, 0, 0, 0],
   [1.925, 1.619, 1.43, 1.289, 1.172, 1.059, 0, 0, 0],
   [1.969, 1.663, 1.475, 1.336, 1.221, 1.118, 1.009, 0, 0],
   [2.007, 1.704, 1.516, 1.379, 1.266, 1.167, 1.07, 0, 0],
   [2.043, 1.741, 1.554, 1.417, 1.307, 1.21, 1.12, 1.026, 0],
   [2.076, 1.775, 1.589, 1.453, 1.344, 1.249, 1.164, 1.078, 0],
   [2.106, 1.807, 1.622, 1.486, 1.378, 1.285, 1.202, 1.122, 1.039],
   [2.134, 1.836, 1.652, 1.517, 1.409, 1.318, 1.237, 1.161, 1.084],
   [2.161, 1.864, 1.68, 1.546, 1.438, 1.348, 1.268, 1.195, 1.123],
   [2.185, 1.89, 1.707, 1.573, 1.466, 1.377, 1.298, 1.226, 1.158],
   [2.209, 1.914, 1.732, 1.599, 1.492, 1.404, 1.326, 1.255, 1.19],
   [2.23, 1.938, 1.756, 1.623, 1.517, 1.429, 1.352, 1.282, 1.218],
   [2.251, 1.96, 1.779, 1.646, 1.54, 1.452, 1.376, 1.308, 1.245],
   [2.271, 1.981, 1.8, 1.668, 1.563, 1.475, 1.399, 1.332, 1.27],
   [2.29, 2, 1.821, 1.689, 1.584, 1.497, 1.421, 1.354, 1.293],
   [2.307, 2.019, 1.84, 1.709, 1.604, 1.517, 1.442, 1.375, 1.315],
   [2.324, 2.037, 1.859, 1.728, 1.624, 1.537, 1.462, 1.396, 1.336],
   [2.341, 2.055, 1.877, 1.746, 1.642, 1.556, 1.481, 1.415, 1.356],
   [2.356, 2.071, 1.894, 1.764, 1.66, 1.574, 1.5, 1.434, 1.375],
   [2.371, 2.088, 1.911, 1.781, 1.677, 1.591, 1.517, 1.452, 1.393],
   [2.385, 2.103, 1.927, 1.797, 1.694, 1.608, 1.534, 1.469, 1.411],
   [2.399, 2.118, 1.942, 1.812, 1.71, 1.624, 1.55, 1.486, 1.428],
   [2.412, 2.132, 1.957, 1.828, 1.725, 1.64, 1.567, 1.502, 1.444],
   [2.425, 2.146, 1.971, 1.842, 1.74, 1.655, 1.582, 1.517, 1.459],
   [2.438, 2.159, 1.985, 1.856, 1.754, 1.669, 1.597, 1.532, 1.475],
   [2.45, 2.172, 1.998, 1.87, 1.768, 1.683, 1.611, 1.547, 1.489],
   [2.461, 2.184, 2.011, 1.883, 1.782, 1.697, 1.624, 1.561, 1.504],
   [2.472, 2.196, 2.024, 1.896, 1.795, 1.711, 1.638, 1.574, 1.517],
   [2.483, 2.208, 2.036, 1.909, 1.807, 1.723, 1.651, 1.587, 1.531],
   [2.494, 2.219, 2.047, 1.921, 1.82, 1.736, 1.664, 1.6, 1.544],
   [2.504, 2.23, 2.059, 1.932, 1.832, 1.748, 1.676, 1.613, 1.556],
   [2.514, 2.241, 2.07, 1.944, 1.843, 1.76, 1.688, 1.625, 1.568],
   [2.524, 2.251, 2.081, 1.955, 1.855, 1.771, 1.699, 1.636, 1.58],
   [2.533, 2.261, 2.092, 1.966, 1.866, 1.783, 1.711, 1.648, 1.592],
   [2.542, 2.271, 2.102, 1.976, 1.876, 1.794, 1.722, 1.659, 1.603],
   [2.551, 2.281, 2.112, 1.987, 1.887, 1.804, 1.733, 1.67, 1.614],
   [2.56, 2.29, 2.122, 1.997, 1.897, 1.815, 1.743, 1.681, 1.625],
   [2.568, 2.299, 2.131, 2.006, 1.907, 1.825, 1.754, 1.691, 1.636],
   [2.577, 2.308, 2.14, 2.016, 1.917, 1.835, 1.764, 1.701, 1.646],
   [2.585, 2.317, 2.149, 2.026, 1.927, 1.844, 1.773, 1.711, 1.656],
   [2.592, 2.326, 2.158, 2.035, 1.936, 1.854, 1.783, 1.721, 1.666],
   [2.6, 2.334, 2.167, 2.044, 1.945, 1.863, 1.792, 1.73, 1.675],
   [2.608, 2.342, 2.175, 2.052, 1.954, 1.872, 1.802, 1.74, 1.685],
   [2.615, 2.35, 2.184, 2.061, 1.963, 1.881, 1.811, 1.749, 1.694],
   [2.622, 2.358, 2.192, 2.069, 1.972, 1.89, 1.82, 1.758, 1.703],
   [2.629, 2.365, 2.2, 2.077, 1.98, 1.898, 1.828, 1.767, 1.711],
   [2.636, 2.373, 2.207, 2.085, 1.988, 1.907, 1.837, 1.775, 1.72],
   [2.643, 2.38, 2.215, 2.093, 1.996, 1.915, 1.845, 1.784, 1.729],
   [2.65, 2.387, 2.223, 2.109, 2.012, 1.931, 1.861, 1.8, 1.745],
   [2.656, 2.394, 2.237, 2.116, 2.019, 1.939, 1.869, 1.808, 1.753],
   [2.663, 2.401, 0.223, 2.101, 2.004, 1.923, 1.853, 1.792, 1.737]]

/-- `Rtable` from `src/outliers.go`: the `[58][9]` array lookup
`Rtable[sampleLength][suspects]`. A Go array access with an index outside
`0..57` (rows) or `0..8` (columns) panics; that panic is modelled by
`none`. -/
def Rtable (sampleLength suspects : ℤ) : Option ℚ :=
  if sampleLength < 0 ∨ suspects < 0 then none
  else (rtableRows.get? sampleLength.toNat).bind fun row => row.get? suspects.toNat

/-- The value carried by a `(float64, error)` return whose error is
discarded with `_`: on success the payload, on failure the NaN the
primitives return alongside their error. -/
def exceptValue : Except StatErr FloatVal → FloatVal
  | .ok v => v
  | .error _ => none

/-- The loop condition `observedeviation[i].value > s*Rtable(NinTable, i)`
of `Peirce`, where `s` is the float square root of the population variance
`varv`. For the non-negative deviation `d = |v - mean|` and the
non-negative table entry `R`, `d > √varv · R` is equivalent to
`varv · R² < d²`, which is exact rational arithmetic; a NaN deviation or
variance makes the comparison false, as IEEE comparisons do. -/
def peirceGtB : FloatVal → FloatVal → ℚ → Bool
  | some d, some sv, R => decide (sv * (R * R) < d * d)
  | _, _, _ => false

/-- The rejection loop of `Peirce`:
`for observedeviation[i].value > s*Rtable(NinTable, i) { …; i++ }`.
The walk along increasing `i` is modelled structurally on the suffix of
the sorted deviation list starting at `i`. Evaluating the condition first
reads `observedeviation[i]` (panic — `none` — once `i` runs past the end)
and then calls `Rtable(NinTable, i)` (panic — `none` — when the row or
the suspect count is outside the table). -/
def peirceLoop (varv : FloatVal) (row : ℤ) :
    List (ℕ × FloatVal) → ℕ → Option (List ℕ)
  | [], _ => none
  | (place, dev) :: rest, i =>
    match Rtable row (i : ℤ) with
    | none => none
    | some R =>
        if peirceGtB dev varv R then (peirceLoop varv row rest (i + 1)).map (place :: ·)
        else some []

/-- `Peirce` from `src/outliers.go`: mean and population standard deviation
of the data (`avg, _ := Mean(data)` keeps the NaN payload when the call
errors), absolute deviations paired with their original index, sorted by
descending deviation (`sort.Slice`, modelled by the deterministic
`insertionSort`), row index `N - 3` capped at `57` for `N > 60`, then the
rejection walk. `none` models a runtime panic. -/
def Peirce (data : List FloatVal) : Option (List ℕ) :=
  let avg := exceptValue (Mean data)
  let varv := exceptValue (StdDevSq data)
  let N := data.length
  let od := (data.enum.map (fun kv => (kv.1, fabs (fsub kv.2 avg)))).insertionSort
      (fun a b => fgtB a.2 b.2 = true)
  let NinTable : ℤ := if 60 < N then 57 else (N : ℤ) - 3
  peirceLoop varv NinTable od 0

/-- `MeasToArr`: the `Meas` column of a series, in order. -/
def MeasToArr (ts : List DataUnit) : List FloatVal := ts.map (·.Meas)

/-- `PeirceOutlierRemoval` from `src/outliers.go`: indices to drop come
from `Peirce` on the measurement column; the outer loop over positions
`k` appends the unit to the rejected series once per matching entry of
`torem` and to the kept series when no entry matches. -/
def PeirceOutlierRemoval (tsin : List DataUnit) :
    Option (List DataUnit × List DataUnit) :=
  (Peirce (MeasToArr tsin)).map fun torem =>
    ((tsin.enum.filter (fun kdu => !torem.contains kdu.1)).map (·.2),
     tsin.enum.flatMap (fun kdu => (torem.filter (fun vv => vv == kdu.1)).map (fun _ => kdu.2)))

/-- The seven-point series of the Peirce example, timestamps 0…6. -/
def peirceSeries : List DataUnit :=
  [{ Chron := 0, Meas := some 10 },
   { Chron := 1, Meas := some 11 },
   { Chron := 2, Meas := some 9 },
   { Chron := 3, Meas := some 10.5 },
   { Chron := 4, Meas := some 100 },
   { Chron := 5, Meas := some 9.5 },
   { Chron := 6, Meas := some 10.2 }]

/-- C4: on `[10, 11, 9, 10.5, 100, 9.5, 10.2]` Peirce's criterion marks
exactly index 4 (the value 100) for rejection: the largest deviation
exceeds `s·R(N−3, 0)` while the next one does not exceed `s·R(N−3, 1)`.
`PeirceOutlierRemoval` accordingly keeps the other six records unchanged
and rejects only the value-100 record. -/
theorem peirce_rejects_only_100 :
    Peirce ([10, 11, 9, 10.5, 100, 9.5, 10.2].map some) = some [4]
    ∧ PeirceOutlierRemoval peirceSeries =
        some ([{ Chron := 0, Meas := some 10 },
               { Chron := 1, Meas := some 11 },
               { Chron := 2, Meas := some 9 },
               { Chron := 3, Meas := some 10.5 },
               { Chron := 5, Meas := some 9.5 },
               { Chron := 6, Meas := some 10.2 }],
              [{ Chron := 4, Meas := some 100 }]) := by
  constructor <;> with_unfolding_all decide

/-- C7: out-of-table lookups are *not* handled — they panic. With the
two-point sample `[1, 2]` (`N = 2 < 4`) the code computes the row index
`NinTable = N − 3 = −1` and the very first loop-condition evaluation
indexes `Rtable[-1]`, an out-of-bounds array access (modelled `none`);
with an empty sample the condition indexes `observedeviation[0]` of an
empty slice. Neither stops rejection cleanly nor reports a dedicated
error. -/
theorem peirce_small_sample_out_of_bounds :
    Peirce [some 1, some 2] = none
    ∧ Peirce [] = none
    ∧ Rtable (-1) 0 = none := by
  refine ⟨by with_unfolding_all decide, by with_unfolding_all decide, rfl⟩

/-- The canonical period units of `Regularize` after normalization of the
unit string. -/
inductive PerUnit where
  | s
  | m
  | h
  deriving DecidableEq, Repr

/-- The `switch per` normalization at the top of `Regularize`
(`src/unnamed/part_001`): the accepted spellings map to the canonical
units; any other token reaches `log.Fatal "period not accepted"`,
modelled by `none`. -/
def normalizePer : String → Option PerUnit
  | "Seconds" | "sec" | "s" => some .s
  | "Minutes" | "min" | "m" => some .m
  | "Hours" | "h" => some .h
  | _ => none

/-- Nanoseconds in one unit (`time.Second`, `time.Minute`, `time.Hour`). -/
def unitNs : PerUnit → ℤ
  | .s => 1000000000
  | .m => 60000000000
  | .h => 3600000000000

/-- Nanoseconds in the tolerance unit of `AddDurationTol`: milliseconds
for a period in seconds, seconds for minutes, minutes for hours. -/
def tolUnitNs : PerUnit → ℤ
  | .s => 1000000
  | .m => 1000000000
  | .h => 60000000000

/-- Go's `time.Time.Truncate(d)`: round the instant down to a multiple of
`d` since the zero time; `d ≤ 0` leaves the instant unchanged. For `d > 0`
and `t` in nanoseconds this is `t - t % d` with the non-negative
remainder. -/
def truncateTime (t d : ℤ) : ℤ := if d ≤ 0 then t else t - t % d

/-- `RoundedStartTime` (`src/unnamed/part_001`) restricted to the three
canonical units produced by normalization: truncate to a multiple of
`unit · freq` (the `"d"` and default cases are unreachable after
normalization). -/
def RoundedStartTime (timetoround : ℤ) (afreqq : ℤ) (aper : PerUnit) : ℤ :=
  truncateTime timetoround (unitNs aper * afreqq)

/-- `AddDuration` (`src/unnamed/part_001`): add `freq` whole units. -/
def AddDuration (start : ℤ) (freq : ℤ) (per : PerUnit) : ℤ :=
  start + unitNs per * freq

/-- `AddDurationTol` (`src/unnamed/part_001`): add `freq` whole units plus
`tolerance` tolerance units (e.g. for seconds,
`time.Millisecond * (freq*1000 + tolerance)`
= `freq` seconds plus `tolerance` milliseconds). -/
def AddDurationTol (start : ℤ) (freq : ℤ) (per : PerUnit) (tolerance : ℤ) : ℤ :=
  start + unitNs per * freq + tolUnitNs per * tolerance

/-- `Bounds` (`src/unnamed/part_001`): `(0, 0)` — not NaN — on an empty
slice, otherwise one pass updating the running minimum and maximum with
IEEE comparisons. -/
def Bounds (xs : List FloatVal) : FloatVal × FloatVal :=
  match xs with
  | [] => (some 0, some 0)
  | x :: _ =>
    (xs.foldl (fun mn v => if fltB v mn then v else mn) x,
     xs.foldl (fun mx v => if fgtB v mx then v else mx) x)

/-- The recognized aggregation-mode spellings of `Regularize`'s `switch
meth`. -/
def recognizedAgg (meth : String) : Prop :=
  meth ∈ (["Average", "average", "avg", "Maximum", "maximum", "max",
           "Minimum", "minimum", "min", "Last", "last", "Sum", "sum"] : List String)

instance (meth : String) : Decidable (recognizedAgg meth) := by
  unfold recognizedAgg
  infer_instance

/-- The `switch meth` of `Regularize` condensing one bucket's collected
values: mean (error discarded as in `du.Meas, _ = Mean(local)`), the
`Bounds` extrema, the last collected value (`local[len(local)-1]`, only
reached with a non-empty bucket), the running sum, and — for every
unrecognized spelling — the placeholder constant `0.0000000001` written in
the source's `default` branch. -/
def regularAgg (meth : String) (lcl : List FloatVal) : FloatVal :=
  if meth = "Average" ∨ meth = "average" ∨ meth = "avg" then exceptValue (Mean lcl)
  else if meth = "Maximum" ∨ meth = "maximum" ∨ meth = "max" then (Bounds lcl).2
  else if meth = "Minimum" ∨ meth = "minimum" ∨ meth = "min" then (Bounds lcl).1
  else if meth = "Last" ∨ meth = "last" then lcl.getLastD none
  else if meth = "Sum" ∨ meth = "sum" then fsum lcl
  else some (1 / 10000000000)

/-- The inner `for` loop of `Regularize` stepping over empty buckets:
starting from the current window end, repeatedly form
`nextEnd = windowEnd + period` and `nextEndTol = nextEnd + tolNs`; once
the pending point `c` satisfies `c ≤ nextEndTol` the window advances to
`nextEnd` and the loop exits; otherwise a NaN sentinel stamped `nextEnd`
is emitted and the walk continues. Returns the emitted sentinels and the
final window end. Termination needs a positive period `P`. -/
def gapWalk (P tolNs : ℤ) (hP : 0 < P) (c wE : ℤ) : List DataUnit × ℤ :=
  if c ≤ wE + P + tolNs then ([], wE + P)
  else
    let rest := gapWalk P tolNs hP c (wE + P)
    ({ Chron := wE + P, Meas := none } :: rest.1, rest.2)
  termination_by (c - tolNs - wE).toNat
  decreasing_by omega

/-- The window end returned by `gapWalk` advanced by at least one period. -/
theorem gapWalk_le_snd (P tolNs : ℤ) (hP : 0 < P) (c wE : ℤ) :
    wE + P ≤ (gapWalk P tolNs hP c wE).2 := by
  rw [gapWalk]
  split
  · exact le_refl _
  · have := gapWalk_le_snd P tolNs hP c (wE + P)
    simp only []
    omega
  termination_by (c - tolNs - wE).toNat
  decreasing_by omega

/-- The outer `for` loop of `Regularize` (`src/unnamed/part_001`, lines
63–123): collect the pending points whose timestamp does not exceed the
current window end (`!Chron.After(windowEnd)` — note the *tolerant* bound
is used only by the gap walk, not by collection), emit one aggregated
record stamped at the window end when at least one point was collected,
stop when the input is exhausted, otherwise walk over empty buckets with
`gapWalk` and continue. `pts` is the not-yet-consumed suffix of the
sorted input. -/
def regLoop (P tolNs : ℤ) (hP : 0 < P) (meth : String)
    (pts : List DataUnit) (wE : ℤ) : List DataUnit :=
  let lcl := pts.takeWhile (fun d => decide (d.Chron ≤ wE))
  let rest := pts.dropWhile (fun d => decide (d.Chron ≤ wE))
  let emit : List DataUnit :=
    if lcl.isEmpty then []
    else [{ Chron := wE, Meas := regularAgg meth (lcl.map DataUnit.Meas) }]
  if rest.isEmpty then emit
  else
    let gw := gapWalk P tolNs hP (rest.headD default).Chron wE
    emit ++ gw.1 ++ regLoop P tolNs hP meth rest gw.2
  termination_by (pts.length, ((pts.headD default).Chron - wE).toNat)
  decreasing_by
    rename_i hne
    simp_wf
    have hne2 : ¬ (List.dropWhile (fun d => decide (d.Chron ≤ wE)) pts).isEmpty = true := hne
    have hsub := (List.dropWhile_sublist (l := pts) (fun d => decide (d.Chron ≤ wE))).length_le
    rcases lt_or_eq_of_le hsub with hlt | heq
    · exact Prod.Lex.left _ _ hlt
    · have heqlist : pts.dropWhile (fun d => decide (d.Chron ≤ wE)) = pts :=
        (List.dropWhile_sublist _).eq_of_length heq
      rw [heqlist] at hne2 ⊢
      obtain ⟨r, rs, hpts⟩ : ∃ r rs, pts = r :: rs := by
        cases pts with
        | nil => simp at hne2
        | cons a l => exact ⟨a, l, rfl⟩
      have hr : ¬ (r.Chron ≤ wE) := by
        intro hle
        have hdw : List.dropWhile (fun d => decide (d.Chron ≤ wE)) (r :: rs) = r :: rs := by
          rw [← hpts, heqlist]
        rw [List.dropWhile_cons, if_pos (by simpa using hle)] at hdw
        have hlen := congrArg List.length hdw
        have hsb := (List.dropWhile_sublist (l := rs) (fun d => decide (d.Chron ≤ wE))).length_le
        simp at hlen
        omega
      subst hpts
      have hgw := gapWalk_le_snd P tolNs hP r.Chron wE
      refine Prod.Lex.right _ ?_
      simp only [List.head?_cons, Option.getD_some]
      omega

/-- `Regularize` (`src/unnamed/part_001`): normalize the period unit
(aborting — `none` — on an unrecognized unit), return the empty series on
empty input, sort chronologically, anchor the grid by rounding the first
timestamp down to a period multiple and stepping back one full period
when the rounding is exact, then run the bucket walk from the first
window end. The Go loop does not terminate when the period
`unit · freq` is not positive; that parameter region is also mapped to
`none`. -/
def Regularize (ts : List DataUnit) (freq : ℤ) (per meth : String)
    (tolerance : ℤ) : Option (List DataUnit) :=
  match normalizePer per with
  | none => none
  | some u =>
    if ts.isEmpty then some []
    else
      let sorted := sortChronAsc ts
      let datemin := (sorted.headD default).Chron
      let start0 := RoundedStartTime datemin freq u
      let start := if datemin = start0 then AddDuration datemin (-freq) u else start0
      if hP : 0 < unitNs u * freq then
        some (regLoop (unitNs u * freq) (tolUnitNs u * tolerance) hP meth sorted
          (AddDurationTol start freq u 0))
      else none

/-- C1: on a series with points at offsets 5 s (value 1), 20 s (value 3)
and 45 s (value 10) past any 30-second period boundary
(`30000000000·k` nanoseconds), `Regularize` with a 30-second period, mean
aggregation and zero tolerance returns exactly two records: offset 30 s
with value 2 (the mean of 1 and 3) and offset 60 s with value 10. -/
theorem regularize_mean_example (k : ℤ) :
    Regularize
      [{ Chron := 30000000000 * k + 5000000000, Meas := some 1 },
       { Chron := 30000000000 * k + 20000000000, Meas := some 3 },
       { Chron := 30000000000 * k + 45000000000, Meas := some 10 }]
      30 "s" "avg" 0
    = some [{ Chron := 30000000000 * k + 30000000000, Meas := some 2 },
            { Chron := 30000000000 * k + 60000000000, Meas := some 10 }] := by
  have hnp : normalizePer "s" = some PerUnit.s := rfl
  have hsort : sortChronAsc
      [{ Chron := 30000000000 * k + 5000000000, Meas := some 1 },
       { Chron := 30000000000 * k + 20000000000, Meas := some 3 },
       { Chron := 30000000000 * k + 45000000000, Meas := some 10 }] =
      [{ Chron := 30000000000 * k + 5000000000, Meas := some 1 },
       { Chron := 30000000000 * k + 20000000000, Meas := some 3 },
       { Chron := 30000000000 * k + 45000000000, Meas := some 10 }] :=
    List.Sorted.insertionSort_eq (by simp [List.sorted_cons, chronLe])
  have hmod : (30000000000 * k + 5000000000) % 30000000000 = 5000000000 := by omega
  simp only [Regularize, hnp, hsort, List.isEmpty_cons, RoundedStartTime,
    truncateTime, unitNs, tolUnitNs, AddDuration, AddDurationTol, List.headD_cons]
  norm_num [hmod]
  rw [regLoop.eq_def]
  have hc1 : (30000000000*k + 5000000000 : ℤ) ≤ 30000000000*k + 30000000000 := by omega
  have hc2 : (30000000000*k + 20000000000 : ℤ) ≤ 30000000000*k + 30000000000 := by omega
  have hc3 : ¬ (30000000000*k + 45000000000 : ℤ) ≤ 30000000000*k + 30000000000 := by omega
  norm_num [List.takeWhile_cons, List.dropWhile_cons, hc1, hc2, hc3]
  constructor
  · norm_num [regularAgg, exceptValue, Mean, fsum, fadd, fdivNat]
  rw [gapWalk.eq_def]
  have hc4 : (30000000000*k + 45000000000 : ℤ)
      ≤ 30000000000*k + 30000000000 + 30000000000 := by omega
  norm_num [hc4]
  rw [regLoop.eq_def]
  norm_num [List.takeWhile_cons, List.dropWhile_cons, hc4,
    regularAgg, exceptValue, Mean, fsum, fadd, fdivNat]
  omega

/-- C5 counterexample: an unrecognized aggregation mode does *not* fail at
construction time. With the single point 5 s → 7, a 30-second period and
the unrecognized mode `"bogus"`, `Regularize` proceeds and emits a record
stamped 30 s whose value is the `default`-branch placeholder
`0.0000000001` — a guessed default in place of the claimed failure. -/
theorem regularize_unrecognized_agg_counterexample :
    Regularize [{ Chron := 5000000000, Meas := some 7 }] 30 "s" "bogus" 0
      = some [{ Chron := 30000000000, Meas := some (1 / 10000000000) }] := by
  have h0 : (0:ℤ) < 30000000000 := by norm_num
  rw [show Regularize [{ Chron := 5000000000, Meas := some 7 }] 30 "s" "bogus" 0
      = some (regLoop 30000000000 0 h0 "bogus"
          [{ Chron := 5000000000, Meas := some 7 }] 30000000000) from rfl]
  rw [regLoop.eq_def]
  norm_num [List.takeWhile_cons, List.dropWhile_cons, regularAgg, exceptValue,
    Mean, fsum, fadd, fdivNat]
  simp

/-- C2 counterexample: with a positive tolerance the emitted series need
not be strictly regular. Points 5 s → 1 and 92 s → 9, period 30 s, mean
aggregation, tolerance 5000 ms: the pending point lands inside the
*tolerant* window ending 90 s (92 ≤ 95) so no sentinel is emitted for the
empty bucket ending 90 s, yet collection uses the non-tolerant bound
(92 > 90) so no aggregated record is emitted there either — the bucket
ending 90 s produces nothing, and consecutive emitted timestamps jump
from 60 s to 120 s, two periods apart. -/
theorem regularize_tolerance_gap_counterexample :
    Regularize [{ Chron := 5000000000, Meas := some 1 },
                { Chron := 92000000000, Meas := some 9 }] 30 "s" "avg" 5000
      = some [{ Chron := 30000000000, Meas := some 1 },
              { Chron := 60000000000, Meas := none },
              { Chron := 120000000000, Meas := some 9 }]
    ∧ ¬ List.Chain' (fun a b => b.Chron = a.Chron + 30000000000)
        [({ Chron := 30000000000, Meas := some 1 } : DataUnit),
         { Chron := 60000000000, Meas := none },
         { Chron := 120000000000, Meas := some 9 }] := by
  constructor
  · have h0 : (0:ℤ) < 30000000000 := by norm_num
    rw [show Regularize [{ Chron := 5000000000, Meas := some 1 },
          { Chron := 92000000000, Meas := some 9 }] 30 "s" "avg" 5000
        = some (regLoop 30000000000 5000000000 h0 "avg"
            [{ Chron := 5000000000, Meas := some 1 },
             { Chron := 92000000000, Meas := some 9 }] 30000000000) from rfl]
    rw [regLoop.eq_def]
    norm_num [List.takeWhile_cons, List.dropWhile_cons, regularAgg, exceptValue,
      Mean, fsum, fadd, fdivNat]
    rw [gapWalk.eq_def]
    norm_num
    rw [gapWalk.eq_def]
    norm_num
    rw [regLoop.eq_def]
    norm_num [List.takeWhile_cons, List.dropWhile_cons]
    rw [gapWalk.eq_def]
    norm_num
    rw [regLoop.eq_def]
    norm_num [List.takeWhile_cons, List.dropWhile_cons, regularAgg, exceptValue,
      Mean, fsum, fadd, fdivNat]
  · simp [List.chain'_cons]

/-- Every record emitted by the gap walk carries the NaN sentinel. -/
theorem gapWalk_mem_none (P tolNs : ℤ) (hP : 0 < P) (c : ℤ) :
    ∀ wE, ∀ r ∈ (gapWalk P tolNs hP c wE).1, r.Meas = none := by
  intro wE
  induction wE using gapWalk.induct P tolNs hP c with
  | case1 wE hcond =>
    rw [gapWalk.eq_def, if_pos hcond]
    intro r hr
    simp at hr
  | case2 wE hcond ih =>
    rw [gapWalk.eq_def, if_neg hcond]
    intro r hr
    rcases List.mem_cons.1 hr with rfl | hr
    · rfl
    · exact ih r hr

/-- For an unrecognized aggregation mode every bucket aggregate is the
source's `default`-branch placeholder `0.0000000001`. -/
theorem regularAgg_unrecognized (meth : String) (hmeth : ¬ recognizedAgg meth) :
    ∀ lcl, regularAgg meth lcl = some (1 / 10000000000) := by
  intro lcl
  simp only [recognizedAgg, List.mem_cons, List.not_mem_nil, or_false, not_or] at hmeth
  obtain ⟨n1, n2, n3, n4, n5, n6, n7, n8, n9, n10, n11, n12, n13⟩ := hmeth
  simp [regularAgg, n1, n2, n3, n4, n5, n6, n7, n8, n9, n10, n11, n12, n13]

/-- With an unrecognized aggregation mode, every record the bucket walk
emits carries either the placeholder value or the NaN gap sentinel. -/
theorem regLoop_unrecognized_values (P tolNs : ℤ) (hP : 0 < P) (meth : String)
    (hmeth : ¬ recognizedAgg meth) :
    ∀ pts wE, ∀ r ∈ regLoop P tolNs hP meth pts wE,
      r.Meas = some (1 / 10000000000) ∨ r.Meas = none := by
  intro pts wE
  induction pts, wE using regLoop.induct P tolNs hP meth with
  | case1 pts wE rest hrest =>
    rw [regLoop.eq_def, if_pos hrest]
    intro r hr
    split at hr
    · simp at hr
    · rcases List.mem_singleton.1 hr with rfl
      exact Or.inl (regularAgg_unrecognized meth hmeth _)
  | case2 pts wE rest hrest gw ih =>
    rw [regLoop.eq_def, if_neg hrest]
    intro r hr
    simp only [List.append_assoc, List.mem_append] at hr
    rcases hr with hr | hr | hr
    · split at hr
      · simp at hr
      · rcases List.mem_singleton.1 hr with rfl
        exact Or.inl (regularAgg_unrecognized meth hmeth _)
    · exact Or.inr (gapWalk_mem_none P tolNs hP _ wE r hr)
    · exact ih r hr

/-- C5 amended: an unrecognized aggregation mode does not make
`Regularize` fail (only an unrecognized period unit aborts): the operation
proceeds, and every record it emits carries either the guessed placeholder
value `0.0000000001` (non-empty buckets) or the NaN gap sentinel — an
invisibly wrong series instead of a construction-time failure. -/
theorem regularize_unrecognized_agg_placeholder (l : List DataUnit) (freq : ℤ)
    (per meth : String) (tolerance : ℤ) (u : PerUnit)
    (hper : normalizePer per = some u) (hmeth : ¬ recognizedAgg meth)
    (hfreq : 0 < freq) :
    ∃ out, Regularize l freq per meth tolerance = some out ∧
      ∀ r ∈ out, r.Meas = some (1 / 10000000000) ∨ r.Meas = none := by
  have hPu : 0 < unitNs u := by cases u <;> norm_num [unitNs]
  have hP : 0 < unitNs u * freq := mul_pos hPu hfreq
  rcases Bool.eq_false_or_eq_true l.isEmpty with hl | hl
  · simp only [Regularize, hper, hl, Bool.false_eq_true, if_false, dif_pos hP]
    first
    | exact ⟨_, rfl, regLoop_unrecognized_values _ _ hP meth hmeth _ _⟩
    | exact ⟨[], rfl, by simp⟩
  · simp only [Regularize, hper, hl, Bool.false_eq_true, if_false, if_true, dif_pos hP]
    first
    | exact ⟨_, rfl, regLoop_unrecognized_values _ _ hP meth hmeth _ _⟩
    | exact ⟨[], rfl, by simp⟩

/-- Witness for C5's amended claim at a one-point series with mode
`"bogus"`. -/
theorem regularize_unrecognized_agg_placeholder_witness :
    (normalizePer "s" = some PerUnit.s ∧ ¬ recognizedAgg "bogus" ∧ (0 : ℤ) < 30)
    ∧ (∃ out,
        Regularize [{ Chron := 5000000000, Meas := some 7 }] 30 "s" "bogus" 0 = some out
        ∧ ∀ r ∈ out, r.Meas = some (1 / 10000000000) ∨ r.Meas = none) :=
  ⟨⟨rfl, by decide, by norm_num⟩,
   regularize_unrecognized_agg_placeholder
     [{ Chron := 5000000000, Meas := some 7 }] 30 "s" "bogus" 0 .s rfl
     (by decide) (by norm_num)⟩

/-- The run of `n` NaN sentinel records a zero-tolerance gap walk starting
at window end `wE` emits, stamped `wE + P, …, wE + n·P`. -/
def nanGrid (P : ℤ) (wE : ℤ) : ℕ → List DataUnit
  | 0 => []
  | n + 1 => { Chron := wE + P, Meas := none } :: nanGrid P (wE + P) n

theorem nanGrid_chain (P : ℤ) :
    ∀ (n : ℕ) (wE : ℤ),
      List.Chain' (fun a b => b.Chron = a.Chron + P) (nanGrid P wE n) := by
  intro n
  induction n with
  | zero => intro wE; exact List.chain'_nil
  | succ m ih =>
    intro wE
    rw [nanGrid, List.chain'_cons']
    refine ⟨?_, ih (wE + P)⟩
    intro y hy
    cases m with
    | zero => simp [nanGrid] at hy
    | succ m' =>
      rw [nanGrid, List.head?_cons, Option.mem_some_iff] at hy
      subst hy
      rfl

theorem nanGrid_getLast (P : ℤ) :
    ∀ (n : ℕ) (wE : ℤ),
      (nanGrid P wE (n + 1)).getLast? =
        some { Chron := wE + (n + 1) * P, Meas := none } := by
  intro n
  induction n with
  | zero => intro wE; simp [nanGrid, one_mul]
  | succ m ih =>
    intro wE
    rw [nanGrid, nanGrid]
    rw [List.getLast?_cons_cons, ← nanGrid, ih (wE + P)]
    congr 2
    push_cast
    ring

theorem nanGrid_mem (P : ℤ) :
    ∀ (n : ℕ) (wE : ℤ) (r : DataUnit), r ∈ nanGrid P wE n →
      r.Meas = none ∧ ∃ j : ℕ, 1 ≤ j ∧ j ≤ n ∧ r.Chron = wE + (j : ℤ) * P := by
  intro n
  induction n with
  | zero => intro wE r hr; simp [nanGrid] at hr
  | succ m ih =>
    intro wE r hr
    rw [nanGrid, List.mem_cons] at hr
    rcases hr with rfl | hr
    · exact ⟨rfl, 1, le_refl 1, by omega, by push_cast; ring⟩
    · obtain ⟨hnone, j, hj1, hjm, hchron⟩ := ih (wE + P) r hr
      refine ⟨hnone, j + 1, by omega, by omega, ?_⟩
      rw [hchron]
      push_cast
      ring

/-- With zero tolerance the gap walk emits exactly the `nanGrid` run: for
some `n ≥ 0` it returns the `n` sentinels `wE + P … wE + n·P` and the new
window end `wE + (n+1)·P`, which is the first grid point the pending
timestamp `c` does not exceed. -/
theorem gapWalk_zero (P : ℤ) (hP : 0 < P) (c : ℤ) :
    ∀ wE, wE < c →
      ∃ n : ℕ, gapWalk P 0 hP c wE = (nanGrid P wE n, wE + (n + 1) * P)
        ∧ c ≤ wE + (n + 1) * P ∧ wE + (n : ℤ) * P < c := by
  intro wE
  induction wE using gapWalk.induct P 0 hP c with
  | case1 wE hcond =>
    intro hlt
    refine ⟨0, ?_, by push_cast; omega, by push_cast; omega⟩
    rw [gapWalk.eq_def, if_pos hcond]
    simp [nanGrid]
  | case2 wE hcond ih =>
    intro hlt
    have hlt' : wE + P < c := by omega
    obtain ⟨n, hgw, hub, hlb⟩ := ih hlt'
    refine ⟨n + 1, ?_, ?_, ?_⟩
    · rw [gapWalk.eq_def, if_neg hcond, hgw, nanGrid]
      refine congrArg₂ Prod.mk rfl ?_
      push_cast
      ring
    · have e1 : wE + ((n : ℤ) + 1 + 1) * P = wE + P + ((n : ℤ) + 1) * P := by ring
      push_cast
      rw [e1]
      exact hub
    · have e2 : wE + ((n : ℤ) + 1) * P = wE + P + (n : ℤ) * P := by ring
      push_cast
      rw [e2]
      exact hlb

theorem foldl_fadd_isSome :
    ∀ (l : List FloatVal) (a : ℚ), (∀ v ∈ l, v.isSome = true) →
      (l.foldl fadd (some a)).isSome = true := by
  intro l
  induction l with
  | nil => intro a _; rfl
  | cons v t ih =>
    intro a hall
    obtain ⟨b, hb⟩ := Option.isSome_iff_exists.1 (hall v (List.mem_cons_self v t))
    rw [List.foldl_cons, hb]
    exact ih (a + b) (fun w hw => hall w (List.mem_cons_of_mem v hw))

theorem fsum_isSome (l : List FloatVal) (hall : ∀ v ∈ l, v.isSome = true) :
    (fsum l).isSome = true :=
  foldl_fadd_isSome l 0 hall

theorem fltB_isSome_left {a b : FloatVal} (h : fltB a b = true) : a.isSome = true := by
  cases a <;> cases b <;> simp [fltB] at h ⊢

theorem foldl_minmax_isSome (f : FloatVal → FloatVal → Bool)
    (hf : ∀ v m, f v m = true → v.isSome = true) :
    ∀ (l : List FloatVal) (a : FloatVal), a.isSome = true →
      (l.foldl (fun m v => if f v m then v else m) a).isSome = true := by
  intro l
  induction l with
  | nil => intro a ha; exact ha
  | cons v t ih =>
    intro a ha
    rw [List.foldl_cons]
    by_cases hv : f v a = true
    · rw [if_pos hv]; exact ih v (hf v a hv)
    · rw [if_neg hv]; exact ih a ha

theorem getLastD_mem :
    ∀ (l : List FloatVal) (d : FloatVal), l ≠ [] → l.getLastD d ∈ l := by
  intro l
  induction l with
  | nil => intro d h; exact absurd rfl h
  | cons v t ih =>
    intro d _
    cases t with
    | nil => simp [List.getLastD_cons]
    | cons w t' =>
      rw [List.getLastD_cons]
      exact List.mem_cons_of_mem v (ih v (by simp))

/-- Every aggregation mode — the five recognized families and the
placeholder default alike — condenses a non-empty bucket of real (non-NaN)
values to a real value. -/
theorem regularAgg_isSome (meth : String) (lcl : List FloatVal)
    (hne : lcl ≠ []) (hall : ∀ v ∈ lcl, v.isSome = true) :
    (regularAgg meth lcl).isSome = true := by
  have hlen : lcl.length ≠ 0 := by simpa using hne
  have hsum := fsum_isSome lcl hall
  have hhead : ∃ x xs, lcl = x :: xs := by
    cases lcl with
    | nil => exact absurd rfl hne
    | cons x xs => exact ⟨x, xs, rfl⟩
  obtain ⟨x, xs, rfl⟩ := hhead
  have hx : x.isSome = true := hall x (List.mem_cons_self x xs)
  have hfgt : ∀ v m : FloatVal, fgtB v m = true → v.isSome = true := by
    intro v m h
    cases v <;> cases m <;> simp_all [fgtB, fltB]
  have hflt : ∀ v m : FloatVal, fltB v m = true → v.isSome = true := by
    intro v m h
    exact fltB_isSome_left h
  have hmean : (exceptValue (Mean (x :: xs))).isSome = true := by
    unfold exceptValue Mean
    rw [if_neg hlen]
    obtain ⟨s, hs⟩ := Option.isSome_iff_exists.1 hsum
    rw [hs]
    rfl
  have hmax : ((Bounds (x :: xs)).2).isSome = true := by
    unfold Bounds
    exact foldl_minmax_isSome fgtB hfgt _ x hx
  have hmin : ((Bounds (x :: xs)).1).isSome = true := by
    unfold Bounds
    exact foldl_minmax_isSome fltB hflt _ x hx
  have hlast : ((x :: xs).getLastD none).isSome = true :=
    hall _ (getLastD_mem (x :: xs) none (by simp))
  unfold regularAgg
  split
  · exact hmean
  · split
    · exact hmax
    · split
      · exact hmin
      · split
        · exact hlast
        · split
          · exact hsum
          · rfl

theorem head_dropWhile_false (p : DataUnit → Bool) :
    ∀ (l : List DataUnit) (x : DataUnit),
      (l.dropWhile p).head? = some x → p x = false := by
  intro l
  induction l with
  | nil => intro x hx; simp at hx
  | cons a t ih =>
    intro x hx
    rw [List.dropWhile_cons] at hx
    by_cases ha : p a = true
    · rw [if_pos ha] at hx
      exact ih x hx
    · rw [if_neg ha] at hx
      rw [List.head?_cons, Option.some_inj] at hx
      subst hx
      exact Bool.eq_false_iff.2 ha

/-- The central invariant of the zero-tolerance bucket walk. Under the
preconditions that the pending input is strictly chronological with real
values, every pending point lies after the previous window end `wE - P`,
and the first pending point lies inside the current window (`≤ wE`), the
walk emits a non-empty series that (i) starts with a real record stamped
`wE`, (ii) steps by exactly one period between consecutive records,
(iii) ends with a real record, (iv) never stamps before `wE`, and (v)
emits a NaN value exactly for the grid buckets `(t - P, t]` containing no
input point. -/
theorem regLoop_zero_spec (P : ℤ) (hP : 0 < P) (meth : String) :
    ∀ pts wE,
      List.Chain' chronLt pts →
      (∀ d ∈ pts, d.Meas.isSome = true) →
      (∀ d ∈ pts, wE - P < d.Chron) →
      (∀ d ∈ pts.head?, d.Chron ≤ wE) →
      pts ≠ [] →
      (regLoop P 0 hP meth pts wE ≠ []
       ∧ (∀ r ∈ (regLoop P 0 hP meth pts wE).head?,
           r.Chron = wE ∧ r.Meas.isSome = true)
       ∧ List.Chain' (fun a b => b.Chron = a.Chron + P) (regLoop P 0 hP meth pts wE)
       ∧ (∀ r ∈ (regLoop P 0 hP meth pts wE).getLast?, r.Meas.isSome = true)
       ∧ (∀ r ∈ regLoop P 0 hP meth pts wE, wE ≤ r.Chron)
       ∧ (∀ r ∈ regLoop P 0 hP meth pts wE,
            (r.Meas = none ↔
              ∀ d ∈ pts, ¬(r.Chron - P < d.Chron ∧ d.Chron ≤ r.Chron)))) := by
  intro pts wE
  induction pts, wE using regLoop.induct P 0 hP meth with
  | case1 pts wE rest hrest =>
    intro hchain hsome hlow hhead hne
    have hrest' : (List.dropWhile (fun d => decide (d.Chron ≤ wE)) pts).isEmpty = true :=
      hrest
    have hdrop_nil : List.dropWhile (fun d => decide (d.Chron ≤ wE)) pts = [] := by
      simpa using hrest'
    have htake : List.takeWhile (fun d => decide (d.Chron ≤ wE)) pts = pts := by
      have hsplit := List.takeWhile_append_dropWhile
        (p := fun d => decide (d.Chron ≤ wE)) (l := pts)
      rw [hdrop_nil, List.append_nil] at hsplit
      exact hsplit
    have hlclE : (List.takeWhile (fun d => decide (d.Chron ≤ wE)) pts).isEmpty = false := by
      rw [htake]
      cases pts with
      | nil => exact absurd rfl hne
      | cons a t => rfl
    have hptsE : pts.isEmpty = false := by
      cases pts with
      | nil => exact absurd rfl hne
      | cons a t => rfl
    have hout : regLoop P 0 hP meth pts wE =
        [{ Chron := wE, Meas := regularAgg meth (pts.map DataUnit.Meas) }] := by
      rw [regLoop.eq_def, if_pos hrest']
      simp only [htake, hlclE, hptsE, Bool.false_eq_true, if_false]
    have hMeasSome : (regularAgg meth (pts.map DataUnit.Meas)).isSome = true := by
      refine regularAgg_isSome meth _ ?_ ?_
      · cases pts with
        | nil => exact absurd rfl hne
        | cons a t => simp
      · intro v hv
        obtain ⟨d, hd, rfl⟩ := List.mem_map.1 hv
        exact hsome d hd
    obtain ⟨hd, tl, rfl⟩ : ∃ hd tl, pts = hd :: tl := by
      cases pts with
      | nil => exact absurd rfl hne
      | cons a t => exact ⟨a, t, rfl⟩
    have hhd : hd.Chron ≤ wE := hhead hd (by rw [List.head?_cons]; rfl)
    refine ⟨by rw [hout]; simp, ?_, ?_, ?_, ?_, ?_⟩
    · intro r hr
      rw [hout, List.head?_cons, Option.mem_some_iff] at hr
      subst hr
      exact ⟨rfl, hMeasSome⟩
    · rw [hout]
      exact List.chain'_singleton _
    · intro r hr
      rw [hout] at hr
      simp only [List.getLast?_singleton, Option.mem_some_iff] at hr
      subst hr
      exact hMeasSome
    · intro r hr
      rw [hout, List.mem_singleton] at hr
      subst hr
      exact le_refl wE
    · intro r hr
      rw [hout, List.mem_singleton] at hr
      subst hr
      refine iff_of_false ?_ ?_
      · intro hnone
        have hnone' : regularAgg meth ((hd :: tl).map DataUnit.Meas) = none := hnone
        rw [hnone'] at hMeasSome
        simp at hMeasSome
      · intro hall'
        exact hall' hd (List.mem_cons_self hd tl)
          ⟨hlow hd (List.mem_cons_self hd tl), hhd⟩
  | case2 pts wE rest hrest gw ih =>
    intro hchain hsome hlow hhead hne
    have hrestD : ¬ (List.dropWhile (fun d => decide (d.Chron ≤ wE)) pts).isEmpty = true :=
      hrest
    have hrest_ne : List.dropWhile (fun d => decide (d.Chron ≤ wE)) pts ≠ [] := by
      intro h
      exact hrestD (by rw [h]; rfl)
    obtain ⟨r1, rrest, hrestEq⟩ : ∃ r1 rrest,
        List.dropWhile (fun d => decide (d.Chron ≤ wE)) pts = r1 :: rrest := by
      cases hdw : List.dropWhile (fun d => decide (d.Chron ≤ wE)) pts with
      | nil => exact absurd hdw hrest_ne
      | cons a t => exact ⟨a, t, rfl⟩
    have hr1false : decide (r1.Chron ≤ wE) = false :=
      head_dropWhile_false _ pts r1 (by rw [hrestEq, List.head?_cons])
    have hr1 : wE < r1.Chron := by
      have := of_decide_eq_false hr1false
      omega
    have hsplit : List.takeWhile (fun d => decide (d.Chron ≤ wE)) pts
        ++ (r1 :: rrest) = pts := by
      rw [← hrestEq]
      exact List.takeWhile_append_dropWhile _ _
    unfold_let gw rest at ih
    rw [hrestEq] at ih
    simp only [List.headD_cons] at ih
    obtain ⟨n, hgw, hub, hlb⟩ := gapWalk_zero P hP r1.Chron wE hr1
    rw [hgw] at ih
    simp only at ih
    obtain ⟨hd, tl, rfl⟩ : ∃ hd tl, pts = hd :: tl := by
      cases pts with
      | nil => exact absurd rfl hne
      | cons a t => exact ⟨a, t, rfl⟩
    have hhd : hd.Chron ≤ wE := hhead hd (by rw [List.head?_cons]; rfl)
    have htakeCons : List.takeWhile (fun d => decide (d.Chron ≤ wE)) (hd :: tl)
        = hd :: List.takeWhile (fun d => decide (d.Chron ≤ wE)) tl := by
      rw [List.takeWhile_cons, if_pos (by simpa using hhd)]
    have hlclE : (List.takeWhile (fun d => decide (d.Chron ≤ wE)) (hd :: tl)).isEmpty
        = false := by
      rw [htakeCons]
      rfl
    have hpw : List.Pairwise chronLt (hd :: tl) := List.chain'_iff_pairwise.mp hchain
    have hpwApp : List.Pairwise chronLt
        (List.takeWhile (fun d => decide (d.Chron ≤ wE)) (hd :: tl) ++ (r1 :: rrest)) := by
      rw [hsplit]
      exact hpw
    obtain ⟨hpwTake, hpwRest, hcross⟩ := List.pairwise_append.mp hpwApp
    have hrestGe : ∀ d ∈ (r1 :: rrest), r1.Chron ≤ d.Chron := by
      intro d hdm
      rcases List.mem_cons.1 hdm with rfl | hdm
      · exact le_refl _
      · exact le_of_lt ((List.pairwise_cons.mp hpwRest).1 d hdm)
    have htakeLe : ∀ d ∈ List.takeWhile (fun d => decide (d.Chron ≤ wE)) (hd :: tl),
        d.Chron ≤ wE := by
      intro d hdm
      simpa using List.mem_takeWhile_imp hdm
    -- product bounds used repeatedly
    have hnP0 : 0 ≤ (n : ℤ) * P := mul_nonneg (by positivity) (le_of_lt hP)
    have hn1P : 0 < ((n : ℤ) + 1) * P := by positivity
    have hsucc : ((n : ℤ) + 1) * P = (n : ℤ) * P + P := by ring
    -- the recursive call
    have hchainRest : List.Chain' chronLt (r1 :: rrest) :=
      List.chain'_iff_pairwise.mpr hpwRest
    have hsomeRest : ∀ d ∈ r1 :: rrest, d.Meas.isSome = true := by
      intro d hdm
      exact hsome d (by rw [← hsplit]; exact List.mem_append_right _ hdm)
    have hlowRest : ∀ d ∈ r1 :: rrest, (wE + ((n : ℤ) + 1) * P) - P < d.Chron := by
      intro d hdm
      have h2 := hrestGe d hdm
      rw [show (wE + ((n : ℤ) + 1) * P) - P = wE + (n : ℤ) * P from by ring]
      omega
    have hheadRest : ∀ d ∈ (r1 :: rrest).head?, d.Chron ≤ wE + ((n : ℤ) + 1) * P := by
      intro d hdm
      rw [List.head?_cons, Option.mem_some_iff] at hdm
      subst hdm
      exact hub
    obtain ⟨one, otwo, othree, ofour, ofive, osix⟩ :=
      ih hchainRest hsomeRest hlowRest hheadRest (by simp)
    -- the record for the current bucket
    have hMeasSome : (regularAgg meth
        ((hd :: List.takeWhile (fun d => decide (d.Chron ≤ wE)) tl).map
          DataUnit.Meas)).isSome = true := by
      refine regularAgg_isSome meth _ (by simp) ?_
      intro v hv
      obtain ⟨d, hdm, rfl⟩ := List.mem_map.1 hv
      refine hsome d ?_
      rw [← hsplit]
      exact List.mem_append_left _ (htakeCons ▸ hdm)
    have hout : regLoop P 0 hP meth (hd :: tl) wE =
        { Chron := wE, Meas := regularAgg meth
            ((hd :: List.takeWhile (fun d => decide (d.Chron ≤ wE)) tl).map
              DataUnit.Meas) }
          :: (nanGrid P wE n
              ++ regLoop P 0 hP meth (r1 :: rrest) (wE + ((n : ℤ) + 1) * P)) := by
      rw [regLoop.eq_def, if_neg hrestD]
      simp only [htakeCons, List.isEmpty_cons, Bool.false_eq_true, if_false, hrestEq,
        List.headD_cons, hgw, List.singleton_append, List.cons_append,
        List.append_assoc, List.nil_append]
    refine ⟨by rw [hout]; simp, ?_, ?_, ?_, ?_, ?_⟩
    · intro r hr
      rw [hout, List.head?_cons, Option.mem_some_iff] at hr
      subst hr
      exact ⟨rfl, hMeasSome⟩
    · rw [hout, List.chain'_cons']
      constructor
      · intro y hy
        cases n with
        | zero =>
          simp only [nanGrid, List.nil_append] at hy
          have := (otwo y hy).1
          rw [this]
          push_cast
          ring
        | succ n' =>
          simp only [nanGrid, List.cons_append, List.head?_cons,
            Option.mem_some_iff] at hy
          subst hy
          rfl
      · refine List.chain'_append.mpr ⟨nanGrid_chain P n wE, othree, ?_⟩
        intro x hx y hy
        cases n with
        | zero => simp [nanGrid] at hx
        | succ n' =>
          rw [nanGrid_getLast P n' wE, Option.mem_some_iff] at hx
          subst hx
          have := (otwo y hy).1
          rw [this]
          push_cast
          ring
    · intro r hr
      rw [hout, ← List.cons_append, List.getLast?_append] at hr
      have hone : (regLoop P 0 hP meth (r1 :: rrest)
          (wE + ((n : ℤ) + 1) * P)).getLast?.isSome = true := by
        rw [List.getLast?_isSome]
        simpa using one
      obtain ⟨z, hz⟩ := Option.isSome_iff_exists.1 hone
      rw [hz] at hr
      have hrz : z = r := by simpa using hr
      subst hrz
      exact ofour z (by rw [hz]; rfl)
    · intro r hr
      rw [hout, List.mem_cons] at hr
      rcases hr with rfl | hr
      · exact le_refl wE
      rcases List.mem_append.1 hr with hr | hr
      · obtain ⟨hnone, j, hj1, hjn, hchron⟩ := nanGrid_mem P n wE r hr
        have hjP : P ≤ (j : ℤ) * P :=
          le_mul_of_one_le_left (le_of_lt hP) (by exact_mod_cast hj1)
        rw [hchron]
        linarith
      · have := ofive r hr
        linarith
    · intro r hr
      rw [hout, List.mem_cons] at hr
      rcases hr with rfl | hr
      · refine iff_of_false ?_ ?_
        · intro hnone
          have hnone' : regularAgg meth
              ((hd :: List.takeWhile (fun d => decide (d.Chron ≤ wE)) tl).map
                DataUnit.Meas) = none := hnone
          rw [hnone'] at hMeasSome
          simp at hMeasSome
        · intro hall'
          exact hall' hd (List.mem_cons_self hd tl)
            ⟨hlow hd (List.mem_cons_self hd tl), hhd⟩
      rcases List.mem_append.1 hr with hr | hr
      · obtain ⟨hnone, j, hj1, hjn, hchron⟩ := nanGrid_mem P n wE r hr
        refine iff_of_true hnone ?_
        rintro d hdm ⟨hdl, hdu⟩
        have hdm' : d ∈ List.takeWhile (fun d => decide (d.Chron ≤ wE)) (hd :: tl)
            ++ (r1 :: rrest) := by
          rw [hsplit]
          exact hdm
        have hjP : P ≤ (j : ℤ) * P :=
          le_mul_of_one_le_left (le_of_lt hP) (by exact_mod_cast hj1)
        rcases List.mem_append.1 hdm' with hdm2 | hdm2
        · have h1 := htakeLe d hdm2
          omega
        · have h1 := hrestGe d hdm2
          have hjn' : (j : ℤ) * P ≤ (n : ℤ) * P :=
            mul_le_mul_of_nonneg_right (by exact_mod_cast hjn) (le_of_lt hP)
          omega
      · have hiff := osix r hr
        have hge := ofive r hr
        constructor
        · intro hnone
          rintro d hdm ⟨hdl, hdu⟩
          have hdm' : d ∈ List.takeWhile (fun d => decide (d.Chron ≤ wE)) (hd :: tl)
              ++ (r1 :: rrest) := by
            rw [hsplit]
            exact hdm
          rcases List.mem_append.1 hdm' with hdm2 | hdm2
          · have h1 := htakeLe d hdm2
            omega
          · exact hiff.mp hnone d hdm2 ⟨hdl, hdu⟩
        · intro hall'
          refine hiff.mpr ?_
          intro d hdm2 hcond
          refine hall' d ?_ hcond
          rw [← hsplit]
          exact List.mem_append_right _ hdm2

/-- C2 amended: for every non-empty input series with strictly increasing
timestamps and real values, a recognized period unit, a recognized
aggregation mode, a positive period count and **zero tolerance**, the
series emitted by `Regularize` is strictly regular — consecutive records
(aggregated or NaN sentinel) are stamped exactly one period
`P = unitNs u · freq` apart — its first and last records are real
(non-NaN) aggregates, so no sentinel precedes the first real point's
bucket or follows the last one, and a record carries the NaN sentinel
exactly when its bucket `(t − P, t]` contains no input point. -/
theorem regularize_strictly_regular (l : List DataUnit) (freq : ℤ)
    (per meth : String) (u : PerUnit)
    (hper : normalizePer per = some u)
    (hmeth : recognizedAgg meth)
    (hfreq : 0 < freq)
    (hne : l ≠ [])
    (hchain : List.Chain' chronLt l)
    (hsome : ∀ d ∈ l, d.Meas.isSome = true) :
    ∃ out, Regularize l freq per meth 0 = some out
      ∧ out ≠ []
      ∧ List.Chain' (fun a b => b.Chron = a.Chron + unitNs u * freq) out
      ∧ (∀ r ∈ out.head?, r.Meas.isSome = true)
      ∧ (∀ r ∈ out.getLast?, r.Meas.isSome = true)
      ∧ (∀ r ∈ out, (r.Meas = none ↔
          ∀ d ∈ l, ¬(r.Chron - unitNs u * freq < d.Chron ∧ d.Chron ≤ r.Chron))) := by
  have hPu : 0 < unitNs u := by cases u <;> norm_num [unitNs]
  have hP : 0 < unitNs u * freq := mul_pos hPu hfreq
  have hpairLt : List.Pairwise chronLt l := List.chain'_iff_pairwise.mp hchain
  have hsorted : sortChronAsc l = l :=
    List.Sorted.insertionSort_eq (hpairLt.imp chronLt_le)
  obtain ⟨hd, tl, rfl⟩ : ∃ hd tl, l = hd :: tl := by
    cases l with
    | nil => exact absurd rfl hne
    | cons a t => exact ⟨a, t, rfl⟩
  -- the anchor
  have hmod0 : 0 ≤ hd.Chron % (unitNs u * freq) := Int.emod_nonneg _ (ne_of_gt hP)
  have hmodP : hd.Chron % (unitNs u * freq) < unitNs u * freq := Int.emod_lt_of_pos _ hP
  have htrunc : RoundedStartTime hd.Chron freq u
      = hd.Chron - hd.Chron % (unitNs u * freq) := by
    rw [RoundedStartTime, truncateTime, if_neg (not_le.mpr hP)]
  have hstartLt :
      (if hd.Chron = RoundedStartTime hd.Chron freq u
        then AddDuration hd.Chron (-freq) u
        else RoundedStartTime hd.Chron freq u) < hd.Chron := by
    by_cases hceq : hd.Chron = RoundedStartTime hd.Chron freq u
    · rw [if_pos hceq, AddDuration]
      have : unitNs u * (-freq) = -(unitNs u * freq) := by ring
      omega
    · rw [if_neg hceq]
      rw [htrunc] at hceq ⊢
      omega
  have hstartGe : hd.Chron ≤
      (if hd.Chron = RoundedStartTime hd.Chron freq u
        then AddDuration hd.Chron (-freq) u
        else RoundedStartTime hd.Chron freq u) + unitNs u * freq := by
    by_cases hceq : hd.Chron = RoundedStartTime hd.Chron freq u
    · rw [if_pos hceq, AddDuration]
      have : unitNs u * (-freq) = -(unitNs u * freq) := by ring
      omega
    · rw [if_neg hceq, htrunc]
      omega
  have hformula : Regularize (hd :: tl) freq per meth 0
      = some (regLoop (unitNs u * freq) 0 hP meth (hd :: tl)
          ((if hd.Chron = RoundedStartTime hd.Chron freq u
              then AddDuration hd.Chron (-freq) u
              else RoundedStartTime hd.Chron freq u) + unitNs u * freq)) := by
    simp only [Regularize, hper, List.isEmpty_cons, Bool.false_eq_true, if_false,
      hsorted, List.headD_cons, dif_pos hP, AddDurationTol, mul_zero, add_zero]
  set start := (if hd.Chron = RoundedStartTime hd.Chron freq u
      then AddDuration hd.Chron (-freq) u
      else RoundedStartTime hd.Chron freq u) with hstart
  have hheadMin : ∀ d ∈ hd :: tl, hd.Chron ≤ d.Chron := by
    intro d hdm
    rcases List.mem_cons.1 hdm with rfl | hdm
    · exact le_refl _
    · exact le_of_lt
        ((List.pairwise_cons.mp (List.chain'_iff_pairwise.mp hchain)).1 d hdm)
  obtain ⟨one, otwo, othree, ofour, ofive, osix⟩ :=
    regLoop_zero_spec (unitNs u * freq) hP meth (hd :: tl)
      (start + unitNs u * freq) hchain hsome
      (by
        intro d hdm
        have := hheadMin d hdm
        omega)
      (by
        intro d hdm
        rw [List.head?_cons, Option.mem_some_iff] at hdm
        subst hdm
        exact hstartGe)
      (by simp)
  refine ⟨regLoop (unitNs u * freq) 0 hP meth (hd :: tl) (start + unitNs u * freq),
    hformula, one, othree, ?_, ofour, osix⟩
  intro r hr
  exact (otwo r hr).2

/-- Witness for C2's amended claim at a two-point series (5 s → 1,
45 s → 10), 30-second period, mean aggregation, zero tolerance. -/
theorem regularize_strictly_regular_witness :
    (normalizePer "s" = some PerUnit.s
      ∧ recognizedAgg "avg"
      ∧ (0 : ℤ) < 30
      ∧ ([{ Chron := 5000000000, Meas := some 1 },
          { Chron := 45000000000, Meas := some 10 }] : List DataUnit) ≠ []
      ∧ List.Chain' chronLt
          [({ Chron := 5000000000, Meas := some 1 } : DataUnit),
           { Chron := 45000000000, Meas := some 10 }]
      ∧ (∀ d ∈ ([{ Chron := 5000000000, Meas := some 1 },
            { Chron := 45000000000, Meas := some 10 }] : List DataUnit),
          d.Meas.isSome = true))
    ∧ (∃ out,
        Regularize [{ Chron := 5000000000, Meas := some 1 },
          { Chron := 45000000000, Meas := some 10 }] 30 "s" "avg" 0 = some out
        ∧ out ≠ []
        ∧ List.Chain' (fun a b => b.Chron = a.Chron + unitNs PerUnit.s * 30) out
        ∧ (∀ r ∈ out.head?, r.Meas.isSome = true)
        ∧ (∀ r ∈ out.getLast?, r.Meas.isSome = true)
        ∧ (∀ r ∈ out, (r.Meas = none ↔
            ∀ d ∈ ([{ Chron := 5000000000, Meas := some 1 },
                { Chron := 45000000000, Meas := some 10 }] : List DataUnit),
              ¬(r.Chron - unitNs PerUnit.s * 30 < d.Chron ∧ d.Chron ≤ r.Chron)))) :=
  ⟨⟨rfl, by decide, by norm_num, by decide,
    by norm_num [List.chain'_cons, chronLt], by decide⟩,
   regularize_strictly_regular
     [{ Chron := 5000000000, Meas := some 1 },
      { Chron := 45000000000, Meas := some 10 }] 30 "s" "avg" .s rfl
     (by decide) (by norm_num) (by decide)
     (by norm_num [List.chain'_cons, chronLt]) (by decide)⟩

end TimeseriesModel
